import Mathlib

/-!
Shallow embedding of `sagequeue-progress.py` (the sagequeue progress monitor).

Modelling conventions:
* Python `int` is `Int` (or `Nat` where the source value is provably a count);
  Python `None` / raised exceptions that a caller would see become `Option`.
* The filesystem is abstracted: a per-offset state file is `Option String`
  (`none` = the path does not exist or the read raises `OSError`), a per-offset
  log is `Option (List LogLine)` where `LogLine` classifies each raw line the
  way the source's regular expressions do.
* Timestamps and durations (`datetime` / `float`) are carried opaquely as `Nat`
  stand-ins: no verified property inspects their values, the source only copies
  them into `WorkerState` fields.
-/

/-- Python `str.isspace` characters relevant to `str.strip()` / `str.split()`
(ASCII range; the artifacts under scrutiny are ASCII). -/
def pyIsSpace (c : Char) : Bool :=
  c = ' ' ∨ c = '\t' ∨ c = '\n' ∨ c = '\r' ∨ c = '\x0b' ∨ c = '\x0c'

/-- Python `str.strip()`: drop leading and trailing whitespace. -/
def pyStrip (s : List Char) : List Char :=
  ((s.dropWhile pyIsSpace).reverse.dropWhile pyIsSpace).reverse

/-- Digit-run part of Python `int(str)`: digits with single underscores allowed
only between digits (CPython grammar for decimal integer literals in `int()`).
`acc` holds the value of the digits consumed so far. -/
def pyDigitsVal (acc : Nat) : List Char → Option Nat
  | [] => some acc
  | c :: cs =>
    if c.isDigit then pyDigitsVal (acc * 10 + (c.toNat - 48)) cs
    else if c = '_' then
      match cs with
      | [] => none
      | c2 :: _ => if c2.isDigit then pyDigitsVal acc cs else none
    else none

/-- Unsigned part of Python `int(str)`: must start with a digit. -/
def pyUnsigned (s : List Char) : Option Nat :=
  match s with
  | [] => none
  | c :: _ => if c.isDigit then pyDigitsVal 0 s else none

/-- Python `int(token)` for a token with no surrounding whitespace: an optional
sign followed by digits (underscore separators allowed). Returns `none` where
Python raises `ValueError`. -/
def pyInt (s : List Char) : Option Int :=
  match s with
  | '+' :: rest => (pyUnsigned rest).map (fun n => (n : Int))
  | '-' :: rest => (pyUnsigned rest).map (fun n => -(n : Int))
  | _ => (pyUnsigned s).map (fun n => (n : Int))

/-- `parse_state_file` (source lines 122-132).  The file is `none` when the
path does not exist (or reading raises `OSError`); otherwise `some content`.
`int(text.split()[0])` reads the first whitespace-delimited token of the
stripped text; a `ValueError` from `int` is caught and collapsed to `None`. -/
def parse_state_file (file : Option String) : Option Int :=
  match file with
  | none => none
  | some content =>
    let text := pyStrip content.data
    if text = [] then none
    else pyInt (text.takeWhile (fun c => !(pyIsSpace c)))

/-- The counting loop of `cases_for_offset` (source lines 188-195), with an
explicit fuel argument to make the recursion structural.  With `stride ≥ 1`
the loop from `gidx` runs at most `total` iterations, so fuel `total` is never
exhausted (lemma `casesLoop_closed`); for `stride = 0` the Python loop does
not terminate, and no claim exercises that case. -/
def casesLoop : Nat → Nat → Nat → Nat → Nat
  | 0, _, _, _ => 0
  | fuel + 1, gidx, stride, total =>
    if gidx < total then 1 + casesLoop fuel (gidx + stride) stride total else 0

/-- `cases_for_offset` (source lines 188-195): count of gidx values handled by
this offset, namely `offset, offset+stride, ...` below `total`. -/
def cases_for_offset (offset stride total : Nat) : Nat :=
  casesLoop total offset stride total

/-- `cases_done_for_offset` (source lines 198-206).  By the time the modulus
and division are reached the operands are nonnegative (the `l < offset` guard
already returned 0), so Lean's Euclidean `%` and `/` on `Int` agree with
Python's floor semantics for `stride ≥ 1`.  Python raises `ZeroDivisionError`
for `stride = 0`; no claim exercises that case. -/
def cases_done_for_offset (last_gidx : Option Int) (offset stride : Int) : Int :=
  match last_gidx with
  | none => 0
  | some l =>
    if l < offset then 0
    else if (l - offset) % stride ≠ 0 then 0
    else (l - offset) / stride + 1

/-- `WorkerState` (source lines 37-46).  `last_timestamp` and `recent_times`
carry opaque timestamp/duration stand-ins (see the header comment). -/
structure WorkerState where
  offset : Nat
  stride : Nat
  last_gidx : Option Int
  cases_done : Int
  cases_total : Nat
  last_timestamp : Option Nat
  recent_times : List Nat
  status : String
  deriving DecidableEq, Repr

/-- `JobProgress` (source lines 49-59). -/
structure JobProgress where
  jobset : String
  graph : String
  rank : Int
  n_vertices : Int
  dim : Int
  kdim : Int
  total_cases : Nat
  stride : Nat
  workers : List WorkerState
  deriving DecidableEq, Repr

/-- `JobProgress.cases_done` (source lines 61-63). -/
def JobProgress.cases_done (p : JobProgress) : Int :=
  (p.workers.map (fun w => w.cases_done)).sum

/-- `JobProgress.cases_remaining` (source lines 65-67). -/
def JobProgress.cases_remaining (p : JobProgress) : Int :=
  max 0 ((p.total_cases : Int) - p.cases_done)

/-- Loop body of `analyze_job` (source lines 248-278) for one `offset`.
`stateFile offset` is the content of the per-offset state file;
`logTimes offset` stands for `parse_log_times(log_file)` and
`lastActivity offset` for `get_last_activity(log_file)` (opaque enrichment
data copied into the record, see the header comment). -/
def analyzeOffset (stride : Nat) (total_cases : Nat)
    (stateFile : Nat → Option String)
    (logTimes : Nat → List (Nat × Nat))
    (lastActivity : Nat → Option Nat) (offset : Nat) : WorkerState :=
  let last_gidx := parse_state_file (stateFile offset)
  let cases_total := cases_for_offset offset stride total_cases
  let cases_done := cases_done_for_offset last_gidx offset stride
  let times := logTimes offset
  let recent_times := (times.drop (times.length - 50)).map Prod.snd
  let last_ts := lastActivity offset
  let status :=
    if cases_done ≥ (cases_total : Int) ∧ 0 < cases_total then "completed"
    else if cases_done = 0 ∧ last_gidx = none then "not_started"
    else "running"
  { offset := offset, stride := stride, last_gidx := last_gidx,
    cases_done := cases_done, cases_total := cases_total,
    last_timestamp := last_ts, recent_times := recent_times, status := status }

/-- `analyze_job` (source lines 221-280).  `math.comb(dim, kdim)` raises
`ValueError` when either argument is negative, so the result is `none` in
that case (the exception propagates to the caller); for `kdim > dim ≥ 0` it
returns 0, as `Nat.choose` does. -/
def analyze_job (jobset graph : String) (rank n_vertices : Int) (stride : Nat)
    (stateFile : Nat → Option String)
    (logTimes : Nat → List (Nat × Nat))
    (lastActivity : Nat → Option Nat) : Option JobProgress :=
  let dim := n_vertices - 1
  let kdim := dim - rank
  if dim < 0 ∨ kdim < 0 then none
  else
    let total_cases := Nat.choose dim.toNat kdim.toNat
    some { jobset := jobset, graph := graph, rank := rank,
           n_vertices := n_vertices, dim := dim, kdim := kdim,
           total_cases := total_cases, stride := stride,
           workers := (List.range stride).map
             (analyzeOffset stride total_cases stateFile logTimes lastActivity) }

/-- One log line, classified the way the source's regular expressions
classify it (lines 135-142): `_WORKER_START_RE`, `_DONE_RE`,
`_WORKER_DONE_RE` (which matches both `done` and `failed`), or none of
them.  The patterns are mutually exclusive on raw text (`_DONE_RE` lines
start with a bracketed timestamp, `_WORKER_*` lines with `[worker `), so a
line has exactly one classification.  Captured fields the loop ignores
(offsets, timestamps, durations) are carried for faithfulness; numeric
groups match `\d+`, so the `int(...)` calls on them cannot raise. -/
inductive LogLine where
  | workerStart (wid : Nat) (off : Nat)
  | doneEvent (ts : Nat) (gidx : Nat) (dt : Nat)
  | workerEnd (wid : Nat) (off : Nat)
  | other
  deriving DecidableEq, Repr

/-- Accumulator of `worker_case_breakdown_from_logs` (source lines 296-297):
`per_worker` is the dict `worker_id -> set of gidx` with `setdefault`
semantics folded in (absent key = empty set), `all_gidx` the job-wide set. -/
structure AttribAcc where
  per_worker : Nat → Finset Nat
  all_gidx : Finset Nat

/-- Per-line step of the attribution loop (source lines 311-333), acting on
the pair (current worker id, shared accumulator). -/
def attribStep (st : Option Nat × AttribAcc) (ln : LogLine) : Option Nat × AttribAcc :=
  match ln with
  | .workerStart wid _ => (some wid, st.2)
  | .doneEvent _ gidx _ =>
    let wid := st.1.getD 0
    (st.1,
      { per_worker := fun w =>
          if w = wid then insert gidx (st.2.per_worker w) else st.2.per_worker w,
        all_gidx := insert gidx st.2.all_gidx })
  | .workerEnd _ _ => (none, st.2)
  | .other => st

/-- Per-offset-log body of `worker_case_breakdown_from_logs` (source lines
300-333): skip a missing/unreadable log, otherwise reset `current_wid` to
`None` and replay the last `log_max_lines` lines into the shared
accumulator. -/
def attribLog (logs : Nat → Option (List LogLine)) (log_max_lines : Nat)
    (acc : AttribAcc) (w : WorkerState) : AttribAcc :=
  match logs w.offset with
  | none => acc
  | some lines =>
    ((lines.drop (lines.length - log_max_lines)).foldl attribStep (none, acc)).2

/-- `worker_case_breakdown_from_logs` (source lines 283-335).  `logs offset`
is the classified content of that offset's log file, `none` when the file
does not exist or reading raises `OSError`. -/
def worker_case_breakdown_from_logs (progress : JobProgress)
    (logs : Nat → Option (List LogLine)) (log_max_lines : Nat) :
    (Nat → Finset Nat) × Finset Nat :=
  let acc := progress.workers.foldl (attribLog logs log_max_lines)
    { per_worker := fun _ => ∅, all_gidx := ∅ }
  (acc.per_worker, acc.all_gidx)

/-- `worker_case_breakdown_from_logs` with the mutable environment made
explicit: the `JobProgress` argument is threaded through the loop exactly as
the Python object is, and returned alongside the function's value, so that
the absence of mutation is a stated property rather than a convention.  Each
iteration returns the progress object it received because no statement in
the source body (lines 283-335) assigns to `progress`, to `progress.workers`
or to any field of a contained `WorkerState`. -/
def worker_case_breakdown_from_logs_run (progress : JobProgress)
    (logs : Nat → Option (List LogLine)) (log_max_lines : Nat) :
    JobProgress × ((Nat → Finset Nat) × Finset Nat) :=
  let st := progress.workers.foldl
    (fun (s : JobProgress × AttribAcc) w => (s.1, attribLog logs log_max_lines s.2 w))
    (progress, { per_worker := fun _ => ∅, all_gidx := ∅ })
  (st.1, (st.2.per_worker, st.2.all_gidx))

/-! ### Arithmetic facts about the counting loop -/

/-- With positive stride and fuel at least `total - gidx`, the counting loop
computes the ceiling `⌈(total - gidx) / stride⌉` (0 when `gidx ≥ total`). -/
lemma casesLoop_closed (fuel gidx stride total : Nat) (hs : 0 < stride)
    (hfuel : total - gidx ≤ fuel) :
    casesLoop fuel gidx stride total
      = if gidx < total then (total - gidx + stride - 1) / stride else 0 := by
  induction fuel generalizing gidx with
  | zero =>
    have hge : ¬ gidx < total := by omega
    simp [casesLoop, hge]
  | succ fuel ih =>
    by_cases hlt : gidx < total
    · rw [casesLoop, if_pos hlt, if_pos hlt,
        ih (gidx + stride) (by omega)]
      by_cases hlt2 : gidx + stride < total
      · rw [if_pos hlt2]
        have e1 : total - (gidx + stride) + stride - 1 = total - gidx - 1 := by
          omega
        have e2 : total - gidx + stride - 1 = (total - gidx - 1) + stride := by
          omega
        rw [e1, e2, Nat.add_div_right _ hs]
        exact Nat.add_comm 1 _
      · rw [if_neg hlt2]
        have h1 : 1 * stride ≤ total - gidx + stride - 1 := by omega
        have h2 : total - gidx + stride - 1 < (1 + 1) * stride := by omega
        rw [Nat.div_eq_of_lt_le h1 h2]
    · rw [casesLoop, if_neg hlt, if_neg hlt]

/-- The counting loop computes the cardinality of the residue class
`{i < total | gidx ≤ i, i ≡ gidx (mod stride)}`. -/
lemma casesLoop_card (fuel gidx stride total : Nat) (hs : 0 < stride)
    (hfuel : total - gidx ≤ fuel) :
    casesLoop fuel gidx stride total
      = ((Finset.range total).filter
          (fun i => gidx ≤ i ∧ (i - gidx) % stride = 0)).card := by
  induction fuel generalizing gidx with
  | zero =>
    have hempty : (Finset.range total).filter
        (fun i => gidx ≤ i ∧ (i - gidx) % stride = 0) = ∅ := by
      rw [Finset.filter_eq_empty_iff]
      intro i hi
      rw [Finset.mem_range] at hi
      intro hcon
      omega
    simp [casesLoop, hempty]
  | succ fuel ih =>
    by_cases hlt : gidx < total
    · have hset : (Finset.range total).filter
          (fun i => gidx ≤ i ∧ (i - gidx) % stride = 0)
          = insert gidx ((Finset.range total).filter
              (fun i => gidx + stride ≤ i ∧ (i - (gidx + stride)) % stride = 0)) := by
        ext i
        simp only [Finset.mem_filter, Finset.mem_range, Finset.mem_insert]
        constructor
        · rintro ⟨hi, hge, hmod⟩
          by_cases heq : i = gidx
          · exact Or.inl heq
          · refine Or.inr ⟨hi, ?_, ?_⟩
            · have hdvd : stride ∣ (i - gidx) := Nat.dvd_of_mod_eq_zero hmod
              have hle : stride ≤ i - gidx := Nat.le_of_dvd (by omega) hdvd
              omega
            · have hdvd : stride ∣ (i - gidx) := Nat.dvd_of_mod_eq_zero hmod
              have hle : stride ≤ i - gidx := Nat.le_of_dvd (by omega) hdvd
              have e : i - (gidx + stride) + stride = i - gidx := by omega
              calc (i - (gidx + stride)) % stride
                  = (i - (gidx + stride) + stride) % stride :=
                    (Nat.add_mod_right _ _).symm
                _ = (i - gidx) % stride := by rw [e]
                _ = 0 := hmod
        · rintro (rfl | ⟨hi, hge, hmod⟩)
          · exact ⟨hlt, Nat.le_refl _, by simp⟩
          · refine ⟨hi, by omega, ?_⟩
            have e : i - gidx = i - (gidx + stride) + stride := by omega
            rw [e, Nat.add_mod_right]
            exact hmod
      have hnot : gidx ∉ (Finset.range total).filter
          (fun i => gidx + stride ≤ i ∧ (i - (gidx + stride)) % stride = 0) := by
        simp only [Finset.mem_filter, Finset.mem_range]
        rintro ⟨-, hge, -⟩
        omega
      rw [hset, Finset.card_insert_of_not_mem hnot, casesLoop, if_pos hlt,
        ih (gidx + stride) (by omega)]
      exact Nat.add_comm 1 _
    · have hempty : (Finset.range total).filter
          (fun i => gidx ≤ i ∧ (i - gidx) % stride = 0) = ∅ := by
        rw [Finset.filter_eq_empty_iff]
        intro i hi
        rw [Finset.mem_range] at hi
        intro hcon
        omega
      simp [casesLoop, hlt, hempty]

/-- Closed form for `cases_for_offset` with positive stride. -/
lemma cases_for_offset_closed (offset stride total : Nat) (hs : 0 < stride) :
    cases_for_offset offset stride total
      = if offset < total then (total - offset + stride - 1) / stride else 0 :=
  casesLoop_closed total offset stride total hs (by omega)

/-- `cases_for_offset` counts the members of the offset's residue class
below `total`. -/
lemma cases_for_offset_card (offset stride total : Nat) (hs : 0 < stride) :
    cases_for_offset offset stride total
      = ((Finset.range total).filter
          (fun i => offset ≤ i ∧ (i - offset) % stride = 0)).card :=
  casesLoop_card total offset stride total hs (by omega)

/-- The per-offset counts of a stride partition the `total` indices. -/
lemma sum_cases_for_offset (stride total : Nat) (hs : 0 < stride) :
    ∑ o ∈ Finset.range stride, cases_for_offset o stride total = total := by
  have h1 : ∀ o ∈ Finset.range stride, cases_for_offset o stride total
      = ((Finset.range total).filter (fun i => i % stride = o)).card := by
    intro o ho
    rw [Finset.mem_range] at ho
    rw [cases_for_offset_card o stride total hs]
    congr 1
    apply Finset.filter_congr
    intro i _
    constructor
    · rintro ⟨hge, hmod⟩
      obtain ⟨k, hk⟩ := Nat.dvd_of_mod_eq_zero hmod
      have hi : i = o + stride * k := by omega
      rw [hi, Nat.add_mul_mod_self_left]
      exact Nat.mod_eq_of_lt ho
    · intro h
      have hge : o ≤ i := h ▸ Nat.mod_le i stride
      obtain ⟨q, hq⟩ : ∃ q, stride * q + i % stride = i :=
        ⟨i / stride, Nat.div_add_mod i stride⟩
      rw [h] at hq
      have e : i - o = stride * q := by omega
      exact ⟨hge, by rw [e, Nat.mul_mod_right]⟩
  rw [Finset.sum_congr rfl h1,
    ← Finset.card_eq_sum_card_fiberwise
      (fun i _ => Finset.mem_range.mpr (Nat.mod_lt i hs)),
    Finset.card_range]

/-- Modelled from the spec: ceiling division `ceil(a / b)` on naturals,
written as in the spec's closed form `(a + b - 1) / b`. -/
def ceil_div (a b : Nat) : Nat := (a + b - 1) / b

/-- Modelled from the spec: the closed form the spec gives for the sizer,
`ceil((total_cases - offset) / stride)` for `offset < total_cases`, else 0. -/
def cases_for_offset_spec (offset stride total : Nat) : Nat :=
  if offset < total then ceil_div (total - offset) stride else 0

/-- C5: for every `offset ≥ 0`, `stride ≥ 1` and `total ≥ 0` (offsets, strides
and totals are naturals here), the counting loop `cases_for_offset` equals the
spec's closed form: `ceil((total - offset)/stride)` when `offset < total`,
and 0 when `offset ≥ total`. -/
theorem claim_C5 (offset stride total : Nat) (hs : 1 ≤ stride) :
    cases_for_offset offset stride total
      = cases_for_offset_spec offset stride total := by
  rw [cases_for_offset_closed offset stride total hs]
  unfold cases_for_offset_spec ceil_div
  rfl

/-- Witness for C5 at `offset = 2`, `stride = 4`, `total = 11`
(`ceil(9/4) = 3`). -/
theorem claim_C5_witness :
    1 ≤ 4 ∧ cases_for_offset 2 4 11 = cases_for_offset_spec 2 4 11 :=
  ⟨by decide, claim_C5 2 4 11 (by decide)⟩

/-- C6: for every `stride ≥ 1` and `total ≥ 0`, the per-offset case counts
over offsets `0 .. stride-1` sum to exactly `total`. -/
theorem claim_C6 (stride total : Nat) (hs : 1 ≤ stride) :
    ∑ o ∈ Finset.range stride, cases_for_offset o stride total = total :=
  sum_cases_for_offset stride total hs

/-- Witness for C6 at `stride = 3`, `total = 7`. -/
theorem claim_C6_witness :
    1 ≤ 3 ∧ ∑ o ∈ Finset.range 3, cases_for_offset o 3 7 = 7 :=
  ⟨by decide, claim_C6 3 7 (by decide)⟩

/-- C2: for every optional `last_index`, `offset ≥ 0` and `stride ≥ 1`,
`cases_done_for_offset` returns 0 for an absent `last_index`, 0 when
`last_index < offset`, 0 when `(last_index - offset) % stride ≠ 0`, and
otherwise `(last_index - offset) / stride + 1`; in particular
`cases_done_for_offset (offset + k * stride) offset stride = k + 1` for
every `k ≥ 0`. -/
theorem claim_C2 (offset stride : Int) (ho : 0 ≤ offset) (hs : 1 ≤ stride) :
    cases_done_for_offset none offset stride = 0
    ∧ (∀ l : Int, l < offset →
        cases_done_for_offset (some l) offset stride = 0)
    ∧ (∀ l : Int, offset ≤ l → (l - offset) % stride ≠ 0 →
        cases_done_for_offset (some l) offset stride = 0)
    ∧ (∀ l : Int, offset ≤ l → (l - offset) % stride = 0 →
        cases_done_for_offset (some l) offset stride
          = (l - offset) / stride + 1)
    ∧ (∀ k : Nat, cases_done_for_offset (some (offset + k * stride)) offset
        stride = k + 1) := by
  refine ⟨rfl, ?_, ?_, ?_, ?_⟩
  · intro l hl
    simp [cases_done_for_offset, hl]
  · intro l hge hmod
    simp [cases_done_for_offset, hmod]
  · intro l hge hmod
    have hnlt : ¬ l < offset := by omega
    simp [cases_done_for_offset, hnlt, hmod]
  · intro k
    have hks : (0 : Int) ≤ (k : Int) * stride :=
      mul_nonneg (Int.natCast_nonneg k) (by omega)
    have hnlt : ¬ offset + (k : Int) * stride < offset := by omega
    have he : offset + (k : Int) * stride - offset = (k : Int) * stride := by
      omega
    have hmod : (offset + (k : Int) * stride - offset) % stride = 0 := by
      rw [he]
      exact Int.mul_emod_left _ _
    have hcond : ¬ ((offset + (k : Int) * stride - offset) % stride ≠ 0) := by
      simp [hmod]
    have hdiv : (offset + (k : Int) * stride - offset) / stride = (k : Int) := by
      rw [he]
      exact Int.mul_ediv_cancel _ (by omega)
    simp only [cases_done_for_offset]
    rw [if_neg hnlt, if_neg hcond, hdiv]

/-- Witness for C2 at `offset = 1`, `stride = 2`, applying the residue-class
clause at `k = 5`, i.e. `last_index = 1 + 5*2 = 11` giving 6 done cases. -/
theorem claim_C2_witness :
    (0 : Int) ≤ 1 ∧ (1 : Int) ≤ 2
    ∧ cases_done_for_offset (some 11) 1 2 = 6 := by
  refine ⟨by decide, by decide, ?_⟩
  have h := (claim_C2 1 2 (by decide) (by decide)).2.2.2.2 5
  norm_num at h
  exact h

/-- C3 as amended: `parse_state_file` returns `none` for a nonexistent path,
an empty file, a whitespace-only file, and a file whose leading
whitespace-delimited token does not parse as an integer; when the leading
token does parse as an integer it returns that integer.  Never raising is
the totality of the embedding: every exception path of the source is caught
and collapsed to `None`. -/
theorem claim_C3 :
    parse_state_file none = none
    ∧ parse_state_file (some "") = none
    ∧ (∀ s : String, s.data.all pyIsSpace = true →
        parse_state_file (some s) = none)
    ∧ (∀ s : String, pyStrip s.data ≠ [] →
        pyInt ((pyStrip s.data).takeWhile (fun c => !(pyIsSpace c))) = none →
        parse_state_file (some s) = none)
    ∧ (∀ (s : String) (n : Int),
        pyInt ((pyStrip s.data).takeWhile (fun c => !(pyIsSpace c))) = some n →
        parse_state_file (some s) = some n) := by
  refine ⟨rfl, rfl, ?_, ?_, ?_⟩
  · intro s hsp
    have h1 : s.data.dropWhile pyIsSpace = [] := by
      rw [List.dropWhile_eq_nil_iff]
      exact List.all_eq_true.mp hsp
    have h2 : pyStrip s.data = [] := by simp [pyStrip, h1]
    simp [parse_state_file, h2]
  · intro s hne hparse
    simp [parse_state_file, if_neg hne, hparse]
  · intro s n hparse
    have hne : pyStrip s.data ≠ [] := by
      intro h0
      rw [h0] at hparse
      exact Option.noConfusion hparse
    simp [parse_state_file, if_neg hne, hparse]

/-- Witness for C3: a state file reading `  452 partial` yields index 452;
the token-parse hypothesis is discharged by evaluation. -/
theorem claim_C3_witness : parse_state_file (some "  452 partial") = some 452 :=
  claim_C3.2.2.2.2 "  452 partial" 452 (by decide)

/-- Counterexample to C3 as stated: a file whose leading token is `-5` does
parse as an integer, and `parse_state_file` returns the negative integer
`-5`, not a non-negative one. -/
theorem claim_C3_counterexample :
    parse_state_file (some "-5") = some (-5) ∧ (-5 : Int) < 0 := by decide

/-! ### Concrete inputs used to instantiate hypotheses of the theorems -/

/-- A state-file layout where only offset 0 has a (well-formed) checkpoint. -/
def probeStateFile : Nat → Option String := fun o => if o = 0 then some "0" else none

/-- A state-file layout whose checkpoints hold `5`, past the end of a small
job's index space. -/
def overrunStateFile : Nat → Option String := fun _ => some "5"

/-- No timing samples in any log. -/
def probeNoTimes : Nat → List (Nat × Nat) := fun _ => []

/-- No activity timestamps in any log. -/
def probeNoActivity : Nat → Option Nat := fun _ => none

/-- Default used only to project out of an `Option JobProgress` whose
presence is proved separately. -/
def emptyProgress : JobProgress :=
  { jobset := "", graph := "", rank := 0, n_vertices := 0, dim := 0, kdim := 0,
    total_cases := 0, stride := 0, workers := [] }

/-- C7: every offset analyzed by `analyze_job` carries the checkpoint-derived
quantities of its own offset, and its status follows the ordered rules:
`completed` when `cases_done ≥ cases_total` and `cases_total > 0`, otherwise
`not_started` when `cases_done = 0` and the checkpoint was absent, otherwise
`running`. -/
theorem claim_C7 (jobset graph : String) (rank n_vertices : Int) (stride : Nat)
    (stateFile : Nat → Option String) (logTimes : Nat → List (Nat × Nat))
    (lastActivity : Nat → Option Nat) (p : JobProgress)
    (hp : analyze_job jobset graph rank n_vertices stride stateFile logTimes
      lastActivity = some p) :
    p.workers.length = stride
    ∧ ∀ (o : Nat) (ho : o < p.workers.length),
        (p.workers.get ⟨o, ho⟩).offset = o
        ∧ (p.workers.get ⟨o, ho⟩).last_gidx = parse_state_file (stateFile o)
        ∧ (p.workers.get ⟨o, ho⟩).cases_total
            = cases_for_offset o stride p.total_cases
        ∧ (p.workers.get ⟨o, ho⟩).cases_done
            = cases_done_for_offset (parse_state_file (stateFile o)) o stride
        ∧ (p.workers.get ⟨o, ho⟩).status
            = (if (p.workers.get ⟨o, ho⟩).cases_done
                  ≥ ((p.workers.get ⟨o, ho⟩).cases_total : Int)
                  ∧ 0 < (p.workers.get ⟨o, ho⟩).cases_total then "completed"
               else if (p.workers.get ⟨o, ho⟩).cases_done = 0
                  ∧ (p.workers.get ⟨o, ho⟩).last_gidx = none then "not_started"
               else "running") := by
  simp only [analyze_job] at hp
  split at hp
  · exact Option.noConfusion hp
  · injection hp with hp
    subst hp
    constructor
    · simp
    · intro o ho
      have hget : ∀ h, (((List.range stride).map
          (analyzeOffset stride
            (Nat.choose (n_vertices - 1).toNat (n_vertices - 1 - rank).toNat)
            stateFile logTimes lastActivity)).get ⟨o, h⟩)
          = analyzeOffset stride
              (Nat.choose (n_vertices - 1).toNat (n_vertices - 1 - rank).toNat)
              stateFile logTimes lastActivity o := by
        intro h
        rw [List.get_eq_getElem, List.getElem_map, List.getElem_range]
      refine ⟨?_, ?_, ?_, ?_, ?_⟩ <;>
        simp only [hget, analyzeOffset]

/-- Witness for C7: a 2-offset job over `C(2,1) = 2` cases where offset 0 has
checkpoint `0` (its single case done): its status is `completed`. -/
theorem claim_C7_witness :
    (((analyze_job "j" "g" 1 3 2 probeStateFile probeNoTimes
        probeNoActivity).getD emptyProgress).workers.get
      ⟨0, by decide⟩).status = "completed" := by
  have h := claim_C7 "j" "g" 1 3 2 probeStateFile probeNoTimes probeNoActivity
    ((analyze_job "j" "g" 1 3 2 probeStateFile probeNoTimes
      probeNoActivity).getD emptyProgress) (by decide)
  exact ((h.2 0 (by decide)).2.2.2.2).trans (by decide)

/-- C10: `analyze_job` yields a `JobProgress` only when
`kdim = n_vertices - 1 - rank ≥ 0`; any call with `rank > n_vertices - 1`
propagates the `ValueError` of `math.comb` (modelled as `none`) instead of
returning a `JobProgress`. -/
theorem claim_C10 (jobset graph : String) (rank n_vertices : Int)
    (stride : Nat) (stateFile : Nat → Option String)
    (logTimes : Nat → List (Nat × Nat)) (lastActivity : Nat → Option Nat) :
    (rank > n_vertices - 1 →
      analyze_job jobset graph rank n_vertices stride stateFile logTimes
        lastActivity = none)
    ∧ (∀ p : JobProgress,
        analyze_job jobset graph rank n_vertices stride stateFile logTimes
          lastActivity = some p → 0 ≤ n_vertices - 1 - rank) := by
  constructor
  · intro hr
    have hneg : n_vertices - 1 - rank < 0 := by omega
    simp only [analyze_job]
    rw [if_pos (Or.inr hneg)]
  · intro p hp
    by_contra hneg
    simp only [analyze_job] at hp
    rw [if_pos (Or.inr (by omega))] at hp
    exact Option.noConfusion hp

/-- Witness for C10: `rank = 5` against `n_vertices = 2` (so `kdim = -4`)
makes `analyze_job` fail rather than produce a snapshot. -/
theorem claim_C10_witness :
    ((5 : Int) > 2 - 1)
    ∧ analyze_job "j" "g" 5 2 1 probeStateFile probeNoTimes probeNoActivity
        = none :=
  ⟨by decide,
    (claim_C10 "j" "g" 5 2 1 probeStateFile probeNoTimes probeNoActivity).1
      (by decide)⟩

/-- A checkpoint value below `total` contributes at most the offset's own
case count. -/
lemma cases_done_le_cases_total (lg : Option Int) (o s t : Nat) (hs : 0 < s)
    (hlt : ∀ l : Int, lg = some l → l < (t : Int)) :
    cases_done_for_offset lg o s ≤ (cases_for_offset o s t : Int) := by
  match lg with
  | none =>
    simp only [cases_done_for_offset]
    exact Int.natCast_nonneg _
  | some l =>
    by_cases h1 : l < (o : Int)
    · simp only [cases_done_for_offset, if_pos h1]
      exact Int.natCast_nonneg _
    · by_cases h2 : (l - (o : Int)) % (s : Int) ≠ 0
      · simp only [cases_done_for_offset, if_neg h1, if_pos h2]
        exact Int.natCast_nonneg _
      · push_neg at h1 h2
        have hl0 : (0 : Int) ≤ l := le_trans (Int.natCast_nonneg o) h1
        obtain ⟨a, rfl⟩ : ∃ a : Nat, l = (a : Int) :=
          ⟨l.toNat, (Int.toNat_of_nonneg hl0).symm⟩
        have hoa : o ≤ a := by exact_mod_cast h1
        have hat : a < t := by exact_mod_cast hlt (a : Int) rfl
        have hcast : ((a : Int)) - (o : Int) = ((a - o : Nat) : Int) := by
          omega
        have hmod : (a - o) % s = 0 := by
          have := h2
          rw [hcast] at this
          exact_mod_cast this
        have hval : cases_done_for_offset (some (a : Int)) o s
            = (((a - o) / s + 1 : Nat) : Int) := by
          simp only [cases_done_for_offset, if_neg (not_lt.mpr h1)]
          rw [if_neg (by rw [hcast]; exact_mod_cast not_ne_iff.mpr hmod)]
          rw [hcast]
          push_cast
          rfl
        rw [hval]
        have hnat : (a - o) / s + 1 ≤ cases_for_offset o s t := by
          rw [cases_for_offset_closed o s t hs, if_pos (by omega)]
          have h3 : (a - o) / s + 1 = ((a - o) + s) / s := by
            rw [Nat.add_div_right _ hs]
          rw [h3]
          apply Nat.div_le_div_right
          omega
        exact_mod_cast hnat

/-- The sum of a function over `List.range` agrees with the `Finset.range`
sum. -/
lemma list_range_map_sum {M : Type} [AddCommMonoid M] (f : Nat → M) (n : Nat) :
    ((List.range n).map f).sum = ∑ i ∈ Finset.range n, f i := by
  induction n with
  | zero => simp
  | succ n ih =>
    rw [List.range_succ, List.map_append, List.sum_append,
      Finset.sum_range_succ, ih]
    simp

/-- C1 as amended: for every `JobProgress` constructed by `analyze_job` with
`stride ≥ 1`, *provided every per-offset checkpoint that parses to an integer
holds a value below `total_cases`*, the sum over all offsets of `cases_done`
is at most `total_cases`.  (The counterexample shows the proviso is needed:
the code trusts checkpoint contents, so a rogue checkpoint past the index
space overruns the invariant.) -/
theorem claim_C1 (jobset graph : String) (rank n_vertices : Int) (stride : Nat)
    (stateFile : Nat → Option String) (logTimes : Nat → List (Nat × Nat))
    (lastActivity : Nat → Option Nat) (p : JobProgress)
    (hp : analyze_job jobset graph rank n_vertices stride stateFile logTimes
      lastActivity = some p)
    (hs : 1 ≤ stride)
    (hchk : ∀ (o : Nat) (l : Int), parse_state_file (stateFile o) = some l →
      l < (p.total_cases : Int)) :
    p.cases_done ≤ (p.total_cases : Int) := by
  simp only [analyze_job] at hp
  split at hp
  · exact Option.noConfusion hp
  · injection hp with hp
    subst hp
    simp only [JobProgress.cases_done, List.map_map]
    have hpoint : ∀ o ∈ List.range stride,
        ((fun w => w.cases_done) ∘ analyzeOffset stride
          (Nat.choose (n_vertices - 1).toNat (n_vertices - 1 - rank).toNat)
          stateFile logTimes lastActivity) o
        ≤ (fun o => (cases_for_offset o stride
            (Nat.choose (n_vertices - 1).toNat
              (n_vertices - 1 - rank).toNat) : Int)) o := by
      intro o _
      simp only [Function.comp_apply, analyzeOffset]
      exact cases_done_le_cases_total _ o stride _ hs (fun l hl => hchk o l hl)
    refine le_trans (List.sum_le_sum hpoint) ?_
    rw [list_range_map_sum]
    have : ∑ o ∈ Finset.range stride, (cases_for_offset o stride
        (Nat.choose (n_vertices - 1).toNat (n_vertices - 1 - rank).toNat) : Int)
        = ((∑ o ∈ Finset.range stride, cases_for_offset o stride
            (Nat.choose (n_vertices - 1).toNat
              (n_vertices - 1 - rank).toNat) : Nat) : Int) := by
      rw [Nat.cast_sum]
    rw [this, sum_cases_for_offset stride _ hs]

/-- Witness for C1 (amended): the well-formed single-offset job whose
checkpoint reads `0` satisfies the invariant. -/
theorem claim_C1_witness :
    ((analyze_job "j" "g" 0 2 1 probeStateFile probeNoTimes
        probeNoActivity).getD emptyProgress).cases_done
    ≤ (((analyze_job "j" "g" 0 2 1 probeStateFile probeNoTimes
        probeNoActivity).getD emptyProgress).total_cases : Int) := by
  refine claim_C1 "j" "g" 0 2 1 probeStateFile probeNoTimes probeNoActivity
    _ (by decide) (by decide) ?_
  intro o l hl
  by_cases h : o = 0
  · subst h
    have h0 : parse_state_file (probeStateFile 0) = some 0 := by decide
    rw [h0] at hl
    injection hl with hl
    subst hl
    decide
  · rw [show probeStateFile o = none from by simp [probeStateFile, h]] at hl
    exact Option.noConfusion hl

/-- Counterexample to C1 as stated: with `dim = 1 ≥ 0`, `kdim = 1 ≥ 0`,
`stride = 1` and a checkpoint artifact reading `5` (an arbitrary content the
claim allows), `analyze_job` yields a snapshot whose summed `cases_done` is 6
while `total_cases = C(1,1) = 1`. -/
theorem claim_C1_counterexample :
    (analyze_job "j" "g" 0 2 1 overrunStateFile probeNoTimes
      probeNoActivity).isSome = true
    ∧ ¬ (((analyze_job "j" "g" 0 2 1 overrunStateFile probeNoTimes
          probeNoActivity).getD emptyProgress).cases_done
        ≤ (((analyze_job "j" "g" 0 2 1 overrunStateFile probeNoTimes
          probeNoActivity).getD emptyProgress).total_cases : Int)) := by
  decide

/-! ### Facts about the attribution state machine -/

/-- A line never removes indices from the job-wide set. -/
lemma attribStep_all_mono (st : Option Nat × AttribAcc) (ln : LogLine) :
    st.2.all_gidx ⊆ (attribStep st ln).2.all_gidx := by
  cases ln with
  | workerStart wid off => exact Finset.Subset.refl _
  | doneEvent ts g dt => exact Finset.subset_insert _ _
  | workerEnd wid off => exact Finset.Subset.refl _
  | other => exact Finset.Subset.refl _

/-- Replaying lines never removes indices from the job-wide set. -/
lemma foldl_attribStep_all_mono (lns : List LogLine)
    (st : Option Nat × AttribAcc) :
    st.2.all_gidx ⊆ (lns.foldl attribStep st).2.all_gidx := by
  induction lns generalizing st with
  | nil => exact Finset.Subset.refl _
  | cons ln rest ih =>
    exact Finset.Subset.trans (attribStep_all_mono st ln) (ih (attribStep st ln))

/-- Every completion event replayed lands in the job-wide set. -/
lemma foldl_attribStep_mem (lns : List LogLine) (st : Option Nat × AttribAcc)
    (ts g dt : Nat) (h : LogLine.doneEvent ts g dt ∈ lns) :
    g ∈ (lns.foldl attribStep st).2.all_gidx := by
  induction lns generalizing st with
  | nil => cases h
  | cons ln rest ih =>
    rcases List.mem_cons.mp h with heq | hmem
    · subst heq
      refine foldl_attribStep_all_mono rest _ ?_
      exact Finset.mem_insert_self _ _
    · exact ih _ hmem

/-- A line preserves the invariant that the job-wide set is exactly the
union of the per-identity sets. -/
lemma attribStep_inv (st : Option Nat × AttribAcc) (ln : LogLine)
    (h : ∀ g : Nat, g ∈ st.2.all_gidx ↔ ∃ w : Nat, g ∈ st.2.per_worker w) :
    ∀ g : Nat, g ∈ (attribStep st ln).2.all_gidx
      ↔ ∃ w : Nat, g ∈ (attribStep st ln).2.per_worker w := by
  cases ln with
  | workerStart wid off => exact h
  | workerEnd wid off => exact h
  | other => exact h
  | doneEvent ts g0 dt =>
    intro g
    simp only [attribStep]
    rw [Finset.mem_insert]
    constructor
    · rintro (rfl | hg)
      · exact ⟨st.1.getD 0, by simp⟩
      · obtain ⟨w, hw⟩ := (h g).mp hg
        refine ⟨w, ?_⟩
        by_cases hw0 : w = st.1.getD 0
        · subst hw0
          rw [if_pos rfl]
          exact Finset.mem_insert_of_mem hw
        · rw [if_neg hw0]
          exact hw
    · rintro ⟨w, hw⟩
      by_cases hw0 : w = st.1.getD 0
      · subst hw0
        rw [if_pos rfl] at hw
        rcases Finset.mem_insert.mp hw with rfl | hw
        · exact Or.inl rfl
        · exact Or.inr ((h g).mpr ⟨_, hw⟩)
      · rw [if_neg hw0] at hw
        exact Or.inr ((h g).mpr ⟨w, hw⟩)

/-- Replaying a tail of lines preserves the union invariant. -/
lemma foldl_attribStep_inv (lns : List LogLine) (st : Option Nat × AttribAcc)
    (h : ∀ g : Nat, g ∈ st.2.all_gidx ↔ ∃ w : Nat, g ∈ st.2.per_worker w) :
    ∀ g : Nat, g ∈ (lns.foldl attribStep st).2.all_gidx
      ↔ ∃ w : Nat, g ∈ (lns.foldl attribStep st).2.per_worker w := by
  induction lns generalizing st with
  | nil => exact h
  | cons ln rest ih => exact ih _ (attribStep_inv st ln h)

/-- Scanning one offset's log preserves the union invariant. -/
lemma attribLog_inv (logs : Nat → Option (List LogLine)) (n : Nat)
    (acc : AttribAcc) (w : WorkerState)
    (h : ∀ g : Nat, g ∈ acc.all_gidx ↔ ∃ i : Nat, g ∈ acc.per_worker i) :
    ∀ g : Nat, g ∈ (attribLog logs n acc w).all_gidx
      ↔ ∃ i : Nat, g ∈ (attribLog logs n acc w).per_worker i := by
  unfold attribLog
  cases logs w.offset with
  | none => exact h
  | some lines => exact foldl_attribStep_inv _ (none, acc) h

/-- Scanning one offset's log never removes indices from the job-wide set. -/
lemma attribLog_all_mono (logs : Nat → Option (List LogLine)) (n : Nat)
    (acc : AttribAcc) (w : WorkerState) :
    acc.all_gidx ⊆ (attribLog logs n acc w).all_gidx := by
  unfold attribLog
  cases logs w.offset with
  | none => exact Finset.Subset.refl _
  | some lines => exact foldl_attribStep_all_mono _ (none, acc)

/-- The outer loop over workers preserves the union invariant. -/
lemma foldl_attribLog_inv (logs : Nat → Option (List LogLine)) (n : Nat)
    (ws : List WorkerState) (acc : AttribAcc)
    (h : ∀ g : Nat, g ∈ acc.all_gidx ↔ ∃ i : Nat, g ∈ acc.per_worker i) :
    ∀ g : Nat, g ∈ (ws.foldl (attribLog logs n) acc).all_gidx
      ↔ ∃ i : Nat, g ∈ (ws.foldl (attribLog logs n) acc).per_worker i := by
  induction ws generalizing acc with
  | nil => exact h
  | cons w rest ih => exact ih _ (attribLog_inv logs n acc w h)

/-- The outer loop never removes indices from the job-wide set. -/
lemma foldl_attribLog_all_mono (logs : Nat → Option (List LogLine)) (n : Nat)
    (ws : List WorkerState) (acc : AttribAcc) :
    acc.all_gidx ⊆ (ws.foldl (attribLog logs n) acc).all_gidx := by
  induction ws generalizing acc with
  | nil => exact Finset.Subset.refl _
  | cons w rest ih =>
    exact Finset.Subset.trans (attribLog_all_mono logs n acc w) (ih _)

/-- A completion event in the scanned tail of a processed worker's log lands
in the job-wide set. -/
lemma foldl_attribLog_mem (logs : Nat → Option (List LogLine)) (n : Nat)
    (ws : List WorkerState) (acc : AttribAcc) (w : WorkerState)
    (hw : w ∈ ws) (lines : List LogLine) (hl : logs w.offset = some lines)
    (ts g dt : Nat)
    (hmem : LogLine.doneEvent ts g dt ∈ lines.drop (lines.length - n)) :
    g ∈ (ws.foldl (attribLog logs n) acc).all_gidx := by
  induction ws generalizing acc with
  | nil => cases hw
  | cons w0 rest ih =>
    rcases List.mem_cons.mp hw with heq | hmem0
    · subst heq
      refine foldl_attribLog_all_mono logs n rest _ ?_
      unfold attribLog
      rw [hl]
      exact foldl_attribStep_mem _ _ ts g dt hmem
    · exact ih _ hmem0

/-- C4: replaying one offset's log tail line by line, a worker-start line
sets the current worker to its id regardless of prior state; a
completion-event line keeps the state and is attributed to the current
worker id when one is set and to the reserved identity 0 otherwise; a
done/failed line clears the current worker while leaving every recorded
attribution and the job-wide set untouched.  In particular, for a log of
`start offset=0` tagged worker 3, two completion events (gidx 10 and 20),
`done offset=0`, then one more completion event (gidx 30), the first two
events are attributed to worker 3 and the last to identity 0. -/
theorem claim_C4 :
    (∀ (st : Option Nat × AttribAcc) (wid off : Nat),
        attribStep st (LogLine.workerStart wid off) = (some wid, st.2))
    ∧ (∀ (st : Option Nat × AttribAcc) (ts g dt : Nat),
        attribStep st (LogLine.doneEvent ts g dt)
          = (st.1,
             { per_worker := fun w =>
                 if w = st.1.getD 0 then insert g (st.2.per_worker w)
                 else st.2.per_worker w,
               all_gidx := insert g st.2.all_gidx }))
    ∧ (∀ (st : Option Nat × AttribAcc) (wid off : Nat),
        attribStep st (LogLine.workerEnd wid off) = (none, st.2))
    ∧ (([LogLine.workerStart 3 0, LogLine.doneEvent 0 10 1,
          LogLine.doneEvent 1 20 1, LogLine.workerEnd 3 0,
          LogLine.doneEvent 2 30 1].foldl attribStep
            (none, { per_worker := fun _ => ∅, all_gidx := ∅ })).2.per_worker 3
          = {10, 20}
        ∧ ([LogLine.workerStart 3 0, LogLine.doneEvent 0 10 1,
            LogLine.doneEvent 1 20 1, LogLine.workerEnd 3 0,
            LogLine.doneEvent 2 30 1].foldl attribStep
              (none, { per_worker := fun _ => ∅, all_gidx := ∅ })).2.per_worker 0
          = {30}) :=
  ⟨fun _ _ _ => rfl, fun _ _ _ _ => rfl, fun _ _ _ => rfl,
    by decide, by decide⟩

/-- C8: after `worker_case_breakdown_from_logs` processes any collection of
logs, every completion event in a scanned tail is recorded in the job-wide
set `all_gidx`, and `all_gidx` is exactly the union over all worker
identities of the per-worker sets. -/
theorem claim_C8 (progress : JobProgress)
    (logs : Nat → Option (List LogLine)) (n : Nat) :
    (∀ g : Nat,
        g ∈ (worker_case_breakdown_from_logs progress logs n).2
          ↔ ∃ wid : Nat,
              g ∈ (worker_case_breakdown_from_logs progress logs n).1 wid)
    ∧ (∀ w ∈ progress.workers, ∀ lines : List LogLine,
        logs w.offset = some lines → ∀ ts g dt : Nat,
          LogLine.doneEvent ts g dt ∈ lines.drop (lines.length - n) →
          g ∈ (worker_case_breakdown_from_logs progress logs n).2) := by
  constructor
  · intro g
    exact foldl_attribLog_inv logs n progress.workers
      { per_worker := fun _ => ∅, all_gidx := ∅ } (by simp) g
  · intro w hw lines hl ts g dt hmem
    exact foldl_attribLog_mem logs n progress.workers _ w hw lines hl
      ts g dt hmem

/-- Inputs instantiating C8: a single worker at offset 0 whose log holds one
completion event with gidx 42. -/
def probeWorker : WorkerState :=
  { offset := 0, stride := 1, last_gidx := none, cases_done := 0,
    cases_total := 0, last_timestamp := none, recent_times := [],
    status := "running" }

/-- A one-worker snapshot for instantiating C8. -/
def probeProgress : JobProgress :=
  { jobset := "j", graph := "g", rank := 0, n_vertices := 2, dim := 1,
    kdim := 1, total_cases := 1, stride := 1, workers := [probeWorker] }

/-- Logs for instantiating C8: one completion event, gidx 42. -/
def probeLogs : Nat → Option (List LogLine) :=
  fun _ => some [LogLine.doneEvent 0 42 1]

/-- Witness for C8: gidx 42 of the single logged completion event is
recorded in the job-wide set. -/
theorem claim_C8_witness :
    42 ∈ (worker_case_breakdown_from_logs probeProgress probeLogs 5).2 :=
  (claim_C8 probeProgress probeLogs 5).2 probeWorker (by decide)
    [LogLine.doneEvent 0 42 1] rfl 0 42 1 (by decide)

/-- The threaded loop never modifies its progress component. -/
lemma foldl_pair_fst (logs : Nat → Option (List LogLine)) (n : Nat)
    (ws : List WorkerState) (q : JobProgress) (acc : AttribAcc) :
    ws.foldl (fun (s : JobProgress × AttribAcc) w =>
        (s.1, attribLog logs n s.2 w)) (q, acc)
      = (q, ws.foldl (attribLog logs n) acc) := by
  induction ws generalizing acc with
  | nil => rfl
  | cons w rest ih => exact ih _

/-- C9: the attribution/reconciliation pass never modifies the `JobProgress`
it is given — the threaded translation returns the input snapshot (hence
every field of every contained `WorkerState` is unchanged) alongside the
same per-worker/job-wide sets the plain function computes, so log-derived
counts are never merged into the checkpoint-derived figures. -/
theorem claim_C9 (progress : JobProgress)
    (logs : Nat → Option (List LogLine)) (n : Nat) :
    (worker_case_breakdown_from_logs_run progress logs n).1 = progress
    ∧ (worker_case_breakdown_from_logs_run progress logs n).2
        = worker_case_breakdown_from_logs progress logs n := by
  unfold worker_case_breakdown_from_logs_run worker_case_breakdown_from_logs
  rw [foldl_pair_fst]
  exact ⟨rfl, rfl⟩
